import Mathlib

/-!
# Verification of the Tauri ACL resolution algorithm

Shallow embedding of `core/tauri-utils/src/acl/resolved.rs` (`Resolved::resolve`
and its helpers).  Input collections (`BTreeMap`) are represented as association
lists holding the map's entries in key order; the data types declared outside
the embedded file (`Manifest`, `Permission`, `Scopes`, `Identifier`, ...) are
modelled from the specification's data-model section.
-/

set_option autoImplicit false

namespace Acl

/-- Modelled from the spec: scope values are opaque structured values that the
resolution algorithm never inspects (`Value` in the source tree, declared
outside the embedded file); we represent them as strings. -/
abbrev Value := String

/-- Modelled from the spec: the platform/target value used to filter
capabilities (`Target`, declared outside the embedded file); only membership
tests are performed on it. -/
abbrev Target := String

/-- Modelled from the spec: a scope is a pair of optional allow/deny lists of
opaque values (`Scopes`, declared outside the embedded file). -/
structure Scopes where
  allow : Option (List Value)
  deny : Option (List Value)
deriving DecidableEq, Repr

/-- Modelled from the spec: the command-name allow/deny sets of a permission
(`Commands`, declared outside the embedded file). -/
structure Commands where
  allow : List String
  deny : List String
deriving DecidableEq, Repr

/-- Modelled from the spec: one grantable permission unit — identifier, command
allow/deny name sets, and a declared scope (`Permission`, declared outside the
embedded file). -/
structure Permission where
  identifier : String
  commands : Commands
  scope : Scopes
deriving DecidableEq, Repr

/-- Modelled from the spec: a named group of permission/set identifiers
(`PermissionSet`, declared outside the embedded file). -/
structure PermissionSet where
  identifier : String
  permissions : List String
deriving DecidableEq, Repr

/-- Modelled from the spec: a plugin's declared permission surface
(`Manifest`, declared outside the embedded file).  The two `BTreeMap`s are
association lists carrying the entries in key order. -/
structure Manifest where
  permissions : List (String × Permission)
  permission_sets : List (String × PermissionSet)
  default_permission : Option PermissionSet
deriving DecidableEq, Repr

/-- Modelled from the spec: a capability permission identifier, optionally
carrying a plugin name (`Identifier.get_prefix` in the source tree) and a base
name (`Identifier.get_base`). -/
structure Identifier where
  plugin? : Option String
  base : String
deriving DecidableEq, Repr

/-- Modelled from the spec: one reference inside a capability — either a bare
permission reference or a reference plus a scope extension
(`PermissionEntry`, declared outside the embedded file). -/
inductive PermissionEntry where
  | permissionRef (identifier : Identifier)
  | extendedPermission (identifier : Identifier) (scope : Scopes)
deriving DecidableEq, Repr

/-- The `PermissionEntry::identifier()`. -/
def PermissionEntry.identifier : PermissionEntry → Identifier
  | .permissionRef i => i
  | .extendedPermission i _ => i

/-- Modelled from the spec: the declared execution context of a capability
(`CapabilityContext`, declared outside the embedded file). -/
inductive CapabilityContext where
  | Local
  | Remote (domains : List String)
deriving DecidableEq, Repr

/-- Modelled from the spec: an application-declared grant
(`Capability`, declared outside the embedded file). -/
structure Capability where
  identifier : String
  permissions : List PermissionEntry
  context : CapabilityContext
  platforms : List Target
  windows : List String
deriving DecidableEq, Repr

/-- A compiled glob pattern (`glob::Pattern`); we keep its source string. -/
structure Pattern where
  source : String
deriving DecidableEq, Repr

/-- Resolution errors (`Error`, declared outside the embedded file).
`recursionLimit` is an artifact of the embedding: the source expander has no
cycle guard and diverges on cyclic permission sets, which we model with a fuel
parameter.  `remoteDomainPanic` models the `panic!` on an invalid remote
domain pattern in `resolve_command` (an abort, unlike the recoverable
`globPattern` error used for window-label patterns). -/
inductive ResolveError where
  | unknownPlugin (plugin : String) (available : String)
  | unknownPermission (plugin : String) (permission : String)
  | setPermissionNotFound (permission : String) (setIdentifier : String)
  | globPattern (pattern : String)
  | remoteDomainPanic (domain : String)
  | recursionLimit
deriving DecidableEq, Repr

/-- The `ExecutionContext` (declared outside the embedded file): local content, or
a remote origin with a compiled domain pattern. -/
inductive ExecutionContext where
  | Local
  | Remote (domain : Pattern)
deriving DecidableEq, Repr

/-- The `CommandKey`: the full command name together with its execution context. -/
structure CommandKey where
  name : String
  context : ExecutionContext
deriving DecidableEq, Repr

/-! ## Association-list maps

`BTreeMap` accumulators of the source.  Lookups return the entry for the key;
`minsert` replaces the value for an existing key and adds a binding otherwise;
`mmodify` is the `entry(k).or_default()` pattern followed by a mutation. -/

/-- Lookup in an association list (`BTreeMap::get`). -/
def mget? {K V : Type} [DecidableEq K] : List (K × V) → K → Option V
  | [], _ => none
  | (k', v) :: rest, k => if k' = k then some v else mget? rest k

/-- Insert-or-replace in an association list (`BTreeMap::insert`). -/
def minsert {K V : Type} [DecidableEq K] : List (K × V) → K → V → List (K × V)
  | [], k, v => [(k, v)]
  | (k', v') :: rest, k, v =>
    if k' = k then (k, v) :: rest else (k', v') :: minsert rest k v

/-- The `BTreeMap::entry(k).or_default()` followed by an in-place mutation `f`:
modify the value bound to `k`, binding `k` to `f d` first if absent. -/
def mmodify {K V : Type} [DecidableEq K] (d : V) (f : V → V) :
    List (K × V) → K → List (K × V)
  | [], k => [(k, f d)]
  | (k', v') :: rest, k =>
    if k' = k then (k', f v') :: rest else (k', v') :: mmodify d f rest k

/-! ## Except-valued list combinators

`mapE` is `collect::<Result<_, _>>()` over a mapped iterator, `foldE` a
fallible left fold (the source's `for` loops with `?`). -/

/-- Fallible map over a list, failing at the first error. -/
def mapE {α β ε : Type} (f : α → Except ε β) : List α → Except ε (List β)
  | [] => .ok []
  | a :: l =>
    match f a with
    | .ok b =>
      match mapE f l with
      | .ok bs => .ok (b :: bs)
      | .error e => .error e
    | .error e => .error e

/-- Fallible left fold over a list, failing at the first error. -/
def foldE {σ α ε : Type} (f : σ → α → Except ε σ) : σ → List α → Except ε σ
  | s, [] => .ok s
  | s, a :: l =>
    match f s a with
    | .ok s' => foldE f s' l
    | .error e => .error e

/-! ## Glob pattern compilation -/

/-- Modelled from the spec: the syntax check performed when compiling a glob
pattern (the source delegates to the external `glob` crate).  We model its
character-class rule: every `[` opened outside a class must be closed by a
matching `]`. -/
def globScan (inClass : Bool) : List Char → Bool
  | [] => !inClass
  | c :: rest =>
    if inClass then
      if c = ']' then globScan false rest else globScan true rest
    else
      if c = '[' then globScan true rest else globScan false rest

/-- Modelled from the spec: `glob::Pattern::new`, compiling a pattern string
and failing with a pattern-syntax error when the string is malformed. -/
def patternNew (s : String) : Except ResolveError Pattern :=
  if globScan false s.data then .ok ⟨s⟩ else .error (.globPattern s)

/-! ## Permission expansion (`get_permission_set_permissions`, `get_permissions`) -/

/-- The body of the member loop of `get_permission_set_permissions`: expand
each member of a set, where `recur` expands a nested permission set.  A member
found in neither map fails with `SetPermissionNotFound`. -/
def expandList (manifest : Manifest)
    (recur : PermissionSet → Except ResolveError (List Permission)) :
    List String → String → Except ResolveError (List Permission)
  | [], _ => .ok []
  | p :: rest, setId =>
    match mget? manifest.permissions p with
    | some permission =>
      match expandList manifest recur rest setId with
      | .ok tail => .ok (permission :: tail)
      | .error e => .error e
    | none =>
      match mget? manifest.permission_sets p with
      | some ps =>
        match recur ps with
        | .ok nested =>
          match expandList manifest recur rest setId with
          | .ok tail => .ok (nested ++ tail)
          | .error e => .error e
        | .error e => .error e
      | none => .error (.setPermissionNotFound p setId)

/-- The `get_permission_set_permissions`, with a fuel bound on the nesting depth:
the source recurses into nested sets without a cycle guard (it diverges on a
cyclic set, which the embedding reports as `recursionLimit`). -/
def get_permission_set_permissions (manifest : Manifest) :
    Nat → PermissionSet → Except ResolveError (List Permission)
  | 0, _ => .error .recursionLimit
  | fuel + 1, ps =>
    expandList manifest (get_permission_set_permissions manifest fuel)
      ps.permissions ps.identifier

/-- The `get_permissions`: resolve one plugin-qualified identifier to its list of
leaf permissions.  `"default"` uses the manifest's default set; otherwise
permission sets take precedence over direct permissions. -/
def get_permissions (fuel : Nat) (plugin_name permission_name : String)
    (acl : List (String × Manifest)) : Except ResolveError (List Permission) :=
  match mget? acl plugin_name with
  | none =>
    .error (.unknownPlugin plugin_name
      (String.intercalate ", " (acl.map (·.1))))
  | some manifest =>
    if permission_name = "default" then
      match manifest.default_permission with
      | none => .error (.unknownPermission plugin_name permission_name)
      | some dflt => get_permission_set_permissions manifest fuel dflt
    else
      match mget? manifest.permission_sets permission_name with
      | some ps => get_permission_set_permissions manifest fuel ps
      | none =>
        match mget? manifest.permissions permission_name with
        | some permission => .ok [permission]
        | none => .error (.unknownPermission plugin_name permission_name)

/-! ## Scope merging (capability-site extension) -/

/-- The scope merge in `Resolved::resolve`: a bare reference keeps the
permission's declared scope; an extended reference appends the extension's
allow/deny values after the declared ones, creating the list if absent
(`get_or_insert_with(Default::default).extend(..)`). -/
def mergedScope (permission : Permission) (entry : PermissionEntry) : Scopes :=
  match entry with
  | .permissionRef _ => permission.scope
  | .extendedPermission _ ext =>
    let afterAllow : Scopes :=
      match ext.allow with
      | some allow =>
        { permission.scope with
          allow := some (permission.scope.allow.getD [] ++ allow) }
      | none => permission.scope
    match ext.deny with
    | some deny =>
      { afterAllow with deny := some (afterAllow.deny.getD [] ++ deny) }
    | none => afterAllow

/-! ## Command resolution (`resolve_command`) -/

/-- The intermediate per-command record (`ResolvedCommandTemp`).  `windows`
models the `HashSet<String>` by a duplicate-free list in insertion order;
`referencedBy` is the debug-only provenance list of
(capability identifier, permission identifier) pairs. -/
structure ResolvedCommandTemp where
  referencedBy : List (String × String)
  windows : List String
  scope : List Nat
  resolvedScopeKey : Option Nat
deriving DecidableEq, Repr

/-- The all-fields-empty `ResolvedCommandTemp` (`Default::default()`). -/
def ResolvedCommandTemp.empty : ResolvedCommandTemp :=
  ⟨[], [], [], none⟩

/-- The map of intermediate command records. -/
abbrev CmdMap := List (CommandKey × ResolvedCommandTemp)

/-- The `HashSet::extend`: add each new string unless already present, keeping
insertion order. -/
def dedupExtend (ws : List String) (new : List String) : List String :=
  new.foldl (fun acc w => if w ∈ acc then acc else acc ++ [w]) ws

/-- The per-context body of the loop in `resolve_command`: fetch or create the
entry for the key, push the provenance record, extend the window set, and push
the contributing scope id when one was registered. -/
def updateCommandEntry (m : CmdMap) (key : CommandKey) (capability : Capability)
    (scopeId : Option Nat) (permission : Permission) : CmdMap :=
  mmodify ResolvedCommandTemp.empty
    (fun e =>
      { e with
        referencedBy :=
          e.referencedBy ++ [(capability.identifier, permission.identifier)],
        windows := dedupExtend e.windows capability.windows,
        scope :=
          match scopeId with
          | some i => e.scope ++ [i]
          | none => e.scope })
    m key

/-- The `contexts` construction in `resolve_command`: a `Local` capability
context yields one local execution context; a `Remote` context compiles each
declared domain glob, panicking (modelled as `remoteDomainPanic`) on a
malformed one. -/
def fanoutContexts (capability : Capability) :
    Except ResolveError (List ExecutionContext) :=
  match capability.context with
  | .Local => .ok [ExecutionContext.Local]
  | .Remote domains =>
    mapE
      (fun domain =>
        match patternNew domain with
        | .ok p => .ok (ExecutionContext.Remote p)
        | .error _ => .error (.remoteDomainPanic domain))
      domains

/-- The `resolve_command`: fan the command out over the capability's execution
contexts and accumulate into each (command, context) entry independently. -/
def resolve_command (m : CmdMap) (command : String) (capability : Capability)
    (scopeId : Option Nat) (permission : Permission) :
    Except ResolveError CmdMap :=
  match fanoutContexts capability with
  | .ok contexts =>
    .ok (contexts.foldl
      (fun m ctx =>
        updateCommandEntry m ⟨command, ctx⟩ capability scopeId permission)
      m)
  | .error e => .error e

/-- The synthetic full command name `plugin:<plugin>|<short-name>`. -/
def fullCommandName (plugin_name command : String) : String :=
  "plugin:" ++ plugin_name ++ "|" ++ command

/-! ## The first pass of `Resolved::resolve` -/

/-- The mutable accumulator state of the first pass of `Resolved::resolve`. -/
structure St where
  allowed : CmdMap
  denied : CmdMap
  currentScopeId : Nat
  commandScopes : List (Nat × Scopes)
  globalScope : List (String × List Scopes)
deriving DecidableEq, Repr

/-- The empty initial accumulator state. -/
def St.init : St :=
  ⟨[], [], 0, [], []⟩

/-- The `has_scope` for one permission use: the merged scope carries an allow or
deny list. -/
def hasScope (permission : Permission) (entry : PermissionEntry) : Bool :=
  (mergedScope permission entry).allow.isSome
    || (mergedScope permission entry).deny.isSome

/-- The scope-id counter after processing one permission use
(`current_scope_id`, incremented only when a scope is registered). -/
def nextScopeId (permission : Permission) (entry : PermissionEntry)
    (st : St) : Nat :=
  if hasScope permission entry then st.currentScopeId + 1
  else st.currentScopeId

/-- The contributing scope id passed to `resolve_command` (`scope_id`). -/
def permScopeId (permission : Permission) (entry : PermissionEntry)
    (st : St) : Option Nat :=
  if hasScope permission entry then some (nextScopeId permission entry st)
  else none

/-- The scope side table after processing one permission use
(`command_scopes`). -/
def nextCommandScopes (permission : Permission) (entry : PermissionEntry)
    (st : St) : List (Nat × Scopes) :=
  if hasScope permission entry then
    minsert st.commandScopes (nextScopeId permission entry st)
      (mergedScope permission entry)
  else st.commandScopes

/-- The body of the `for permission in permissions` loop: merge the scope,
then either accumulate into the plugin's global scope (both command name sets
empty) or register the scope (when non-empty) and resolve every allowed and
denied command name. -/
def processPermission (capability : Capability) (plugin_name : String)
    (entry : PermissionEntry) (st : St) (permission : Permission) :
    Except ResolveError St :=
  if permission.commands.allow = [] ∧ permission.commands.deny = [] then
    .ok { st with
          globalScope :=
            mmodify [] (fun l => l ++ [mergedScope permission entry])
              st.globalScope plugin_name }
  else
    match foldE
        (fun m c =>
          resolve_command m (fullCommandName plugin_name c) capability
            (permScopeId permission entry st) permission)
        st.allowed permission.commands.allow with
    | .ok allowed =>
      match foldE
          (fun m c =>
            resolve_command m (fullCommandName plugin_name c) capability
              (permScopeId permission entry st) permission)
          st.denied permission.commands.deny with
      | .ok denied =>
        .ok { st with
              allowed := allowed
              denied := denied
              currentScopeId := nextScopeId permission entry st
              commandScopes := nextCommandScopes permission entry st }
      | .error e => .error e
    | .error e => .error e

/-- The body of the `for permission_entry in &capability.permissions` loop: an
identifier without a plugin name contributes nothing; otherwise expand it and
process each resulting permission. -/
def processEntry (fuel : Nat) (acl : List (String × Manifest))
    (capability : Capability) (st : St) (entry : PermissionEntry) :
    Except ResolveError St :=
  match (PermissionEntry.identifier entry).plugin? with
  | none => .ok st
  | some plugin_name =>
    match get_permissions fuel plugin_name
        (PermissionEntry.identifier entry).base acl with
    | .ok permissions =>
      foldE (processPermission capability plugin_name entry) st permissions
    | .error e => .error e

/-- The body of the `for capability in capabilities.values()` loop: skip the
capability unless its platform list contains the target. -/
def processCapability (fuel : Nat) (acl : List (String × Manifest))
    (target : Target) (st : St) (capability : Capability) :
    Except ResolveError St :=
  if target ∈ capability.platforms then
    foldE (processEntry fuel acl capability) st capability.permissions
  else .ok st

/-- The whole first pass (`// resolve commands`), iterating over the
capability map's values in key order. -/
def stage1 (fuel : Nat) (acl : List (String × Manifest)) (target : Target)
    (capabilities : List (String × Capability)) : Except ResolveError St :=
  foldE (fun st kv => processCapability fuel acl target st kv.2) St.init
    capabilities

/-! ## The scope-resolution pass (`// resolve scopes`) -/

/-- The `Vec::sort` on the contributing scope-id list (ascending). -/
def sortIds (ids : List Nat) : List Nat :=
  List.insertionSort (· ≤ ·) ids

/-- Modelled from the spec: the deterministic content hash of the sorted
scope-id sequence.  The source feeds the sorted `Vec<usize>` to
`DefaultHasher`, a process-deterministic 64-bit hash whose collision risk is
an accepted, unchecked risk; we model it by a concrete deterministic 64-bit
fold (an FNV-style hash of the length followed by the elements). -/
def hashScopeIds (ids : List Nat) : Nat :=
  ids.foldl (fun h x => (h * 1099511628211 + x + 1) % 2 ^ 64)
    ((14695981039346656037 + ids.length) % 2 ^ 64)

/-- A merged scope value store entry (`ResolvedScope`). -/
structure ResolvedScopeValue where
  allow : List Value
  deny : List Value
deriving DecidableEq, Repr

/-- The merged `ResolvedScope` of a sorted id list: the concatenation, in list
order, of every referenced intermediate scope's allow values, and likewise for
deny (`flat_map` + `flatten` in the source; the `unwrap` cannot fail because
every pushed id was previously inserted, so the embedding defaults to the
empty scope). -/
def mergeScopes (commandScopes : List (Nat × Scopes)) (ids : List Nat) :
    ResolvedScopeValue where
  allow := ids.flatMap fun s =>
    ((mget? commandScopes s).getD ⟨none, none⟩).allow.getD []
  deny := ids.flatMap fun s =>
    ((mget? commandScopes s).getD ⟨none, none⟩).deny.getD []

/-- The body of the `for allowed in allowed_commands.values_mut()` loop: an
entry with contributing scope ids sorts them, records the hash of the sorted
sequence as its scope key, and produces the merged store entry; an entry
without contributing ids is left untouched. -/
def resolveScopeEntry (commandScopes : List (Nat × Scopes))
    (e : ResolvedCommandTemp) :
    ResolvedCommandTemp × Option (Nat × ResolvedScopeValue) :=
  if e.scope = [] then (e, none)
  else
    let sorted := sortIds e.scope
    let h := hashScopeIds sorted
    ({ e with scope := sorted, resolvedScopeKey := some h },
      some (h, mergeScopes commandScopes sorted))

/-- One step of the scope-resolution pass: rewrite this entry and, when a
scope key was produced, insert the merged scope into the store. -/
def resolveScopeStep (commandScopes : List (Nat × Scopes))
    (acc : CmdMap × List (Nat × ResolvedScopeValue))
    (kv : CommandKey × ResolvedCommandTemp) :
    CmdMap × List (Nat × ResolvedScopeValue) :=
  (acc.1 ++ [(kv.1, (resolveScopeEntry commandScopes kv.2).1)],
    match (resolveScopeEntry commandScopes kv.2).2 with
    | none => acc.2
    | some (h, rs) => minsert acc.2 h rs)

/-- The whole scope-resolution pass as a left fold of `resolveScopeStep`. -/
def resolveScopes (commandScopes : List (Nat × Scopes)) (allowed : CmdMap) :
    CmdMap × List (Nat × ResolvedScopeValue) :=
  allowed.foldl (resolveScopeStep commandScopes) ([], [])

/-! ## Output assembly -/

/-- A final resolved command (`ResolvedCommand`): compiled window patterns,
optional scope key, and the debug-only provenance list. -/
structure ResolvedCommand where
  referencedBy : List (String × String)
  windows : List Pattern
  scope : Option Nat
deriving DecidableEq, Repr

/-- The final resolved ACL (`Resolved`); `acl` is the debug-only copy of the
source manifests. -/
structure Resolved where
  acl : List (String × Manifest)
  allowedCommands : List (CommandKey × ResolvedCommand)
  deniedCommands : List (CommandKey × ResolvedCommand)
  commandScope : List (Nat × ResolvedScopeValue)
  globalScope : List (String × ResolvedScopeValue)
deriving DecidableEq, Repr

/-- The `parse_window_patterns`: compile every accumulated window-label string.
The source iterates a `HashSet<String>` whose iteration order is not a
function of its contents; the embedding threads that order through `ord`, the
enumeration the hash set happens to produce (always a permutation of the
accumulated strings). -/
def parse_window_patterns (ord : List String → List String)
    (windows : List String) : Except ResolveError (List Pattern) :=
  mapE patternNew (ord windows)

/-- Assembly of one final command entry from its intermediate record. -/
def assembleCommand (ord : List String → List String)
    (kv : CommandKey × ResolvedCommandTemp) :
    Except ResolveError (CommandKey × ResolvedCommand) :=
  match parse_window_patterns ord kv.2.windows with
  | .ok patterns =>
    .ok (kv.1,
      { referencedBy := kv.2.referencedBy
        windows := patterns
        scope := kv.2.resolvedScopeKey })
  | .error e => .error e

/-- The global-scope aggregation: concatenate, in accumulation order, the
allow and deny lists of every contribution (`extend`, no deduplication). -/
def buildGlobalScope (scopes : List Scopes) : ResolvedScopeValue :=
  scopes.foldl
    (fun acc s =>
      { allow := acc.allow ++ s.allow.getD []
        deny := acc.deny ++ s.deny.getD [] })
    ⟨[], []⟩

/-- A valid window-set enumeration order: whatever order the hash set yields,
it enumerates exactly the accumulated strings. -/
def OrdValid (ord : List String → List String) : Prop :=
  ∀ ws : List String, (ord ws).Perm ws

/-- The `Resolved::resolve`: the whole pipeline.  `ord` is the `HashSet` iteration
order used by `parse_window_patterns`; `fuel` bounds the depth of the (cycle
-unguarded) permission-set expansion. -/
def Resolved.resolve (ord : List String → List String) (fuel : Nat)
    (acl : List (String × Manifest))
    (capabilities : List (String × Capability)) (target : Target) :
    Except ResolveError Resolved :=
  match stage1 fuel acl target capabilities with
  | .error e => .error e
  | .ok st =>
    match mapE (assembleCommand ord)
        (resolveScopes st.commandScopes st.allowed).1 with
    | .error e => .error e
    | .ok allowedCommands =>
      match mapE (assembleCommand ord) st.denied with
      | .error e => .error e
      | .ok deniedCommands =>
        .ok { acl := acl
              allowedCommands := allowedCommands
              deniedCommands := deniedCommands
              commandScope := (resolveScopes st.commandScopes st.allowed).2
              globalScope :=
                st.globalScope.map fun kv => (kv.1, buildGlobalScope kv.2) }

/-! ## Concrete fixtures used by witnesses and counterexamples -/

/-- A concrete manifest used by witnesses: leaf permission `p`, permission
set `setB` containing it, permission set `setA` containing `setB`. -/
def exNestedManifest : Manifest :=
  { permissions := [("p", ⟨"p", ⟨["r"], []⟩, ⟨none, none⟩⟩)]
    permission_sets :=
      [("setA", ⟨"setA", ["setB"]⟩), ("setB", ⟨"setB", ["p"]⟩)]
    default_permission := none }

/-- The record created by `resolve_command` for a key seen for the first
time: one provenance pair, the capability's window strings (deduplicated),
and the contributing scope id, when one was registered. -/
def freshCommandEntry (capability : Capability) (scopeId : Option Nat)
    (permission : Permission) : ResolvedCommandTemp :=
  { referencedBy := [(capability.identifier, permission.identifier)]
    windows := dedupExtend [] capability.windows
    scope := scopeId.toList
    resolvedScopeKey := none }

/-- A concrete manifest map whose plugin `fs` grants `readFile`. -/
def badWindowAcl : List (String × Manifest) :=
  [("fs", { permissions := [("read", ⟨"read", ⟨["readFile"], []⟩,
              ⟨none, none⟩⟩)]
            permission_sets := []
            default_permission := none })]

/-- A concrete capability with a malformed window pattern. -/
def badWindowCaps : List (String × Capability) :=
  [("cap1", ⟨"cap1", [.permissionRef ⟨some "fs", "read"⟩], .Local,
    ["linux"], ["["]⟩)]

/-- The first-pass state produced by `badWindowAcl`/`badWindowCaps`. -/
def badWindowSt : St :=
  ⟨[(⟨"plugin:fs|readFile", .Local⟩, ⟨[("cap1", "read")], ["["], [], none⟩)],
    [], 0, [], []⟩

/-- No entry of the map carries a resolved scope key. -/
def NoScopeKeys (m : CmdMap) : Prop :=
  ∀ kv ∈ m, kv.2.resolvedScopeKey = none

/-- A concrete scope side table and allowed map used by the C1 witness. -/
def c1cs : List (Nat × Scopes) :=
  [(1, ⟨some ["a"], none⟩), (2, ⟨some ["b", "c"], none⟩)]

/-- A concrete allowed-table entry with unsorted contributing ids. -/
def c1allowed : CmdMap :=
  [(⟨"plugin:fs|readFile", .Local⟩, ⟨[], [], [2, 1], none⟩)]

/-- A concrete manifest with a deny-only permission carrying a scope. -/
def deniedScopeAcl : List (String × Manifest) :=
  [("fs", { permissions := [("deny-evil", ⟨"deny-evil", ⟨[], ["evil"]⟩,
              ⟨some ["/tmp/a"], none⟩⟩)]
            permission_sets := []
            default_permission := none })]

/-- A concrete capability referencing the deny-only permission. -/
def deniedScopeCaps : List (String × Capability) :=
  [("cap1", ⟨"cap1", [.permissionRef ⟨some "fs", "deny-evil"⟩], .Local,
    ["linux"], ["*"]⟩)]

/-- The first-pass state at the C1 counterexample input. -/
def c1badSt : St :=
  ⟨[], [(⟨"plugin:fs|evil", .Local⟩,
      ⟨[("cap1", "deny-evil")], ["*"], [1], none⟩)], 1,
    [(1, ⟨some ["/tmp/a"], none⟩)], []⟩

/-- The resolved output at the C1 counterexample input. -/
def c1badResolved : Resolved :=
  ⟨deniedScopeAcl, [],
    [(⟨"plugin:fs|evil", .Local⟩,
      ⟨[("cap1", "deny-evil")], [⟨"*"⟩], none⟩)],
    [], []⟩

/-- Two final command entries agree up to the order of their compiled window
patterns. -/
def CommandAgree (a b : CommandKey × ResolvedCommand) : Prop :=
  a.1 = b.1 ∧ a.2.scope = b.2.scope
    ∧ a.2.referencedBy = b.2.referencedBy
    ∧ a.2.windows.Perm b.2.windows

/-- A concrete manifest map granting `readFile` under plugin `fs`. -/
def twoWindowAcl : List (String × Manifest) :=
  [("fs", { permissions := [("read", ⟨"read", ⟨["readFile"], []⟩,
              ⟨none, none⟩⟩)]
            permission_sets := []
            default_permission := none })]

/-- A concrete capability with two window patterns. -/
def twoWindowCaps : List (String × Capability) :=
  [("cap1", ⟨"cap1", [.permissionRef ⟨some "fs", "read"⟩], .Local,
    ["linux"], ["main", "second"]⟩)]

/-! ## Basic facts about the association-list maps and combinators -/

instance {ε α : Type} [DecidableEq ε] [DecidableEq α] :
    DecidableEq (Except ε α) := fun a b =>
  match a, b with
  | .ok x, .ok y => decidable_of_iff (x = y) (by simp)
  | .ok _, .error _ => .isFalse (by simp)
  | .error _, .ok _ => .isFalse (by simp)
  | .error e₁, .error e₂ => decidable_of_iff (e₁ = e₂) (by simp)

theorem mget?_minsert_self {K V : Type} [DecidableEq K]
    (m : List (K × V)) (k : K) (v : V) :
    mget? (minsert m k v) k = some v := by
  induction m with
  | nil => simp [minsert, mget?]
  | cons kv rest ih =>
    by_cases h : kv.1 = k <;> simp [minsert, mget?, h, ih]

theorem mget?_minsert_ne {K V : Type} [DecidableEq K]
    (m : List (K × V)) (k k' : K) (v : V) (h : k ≠ k') :
    mget? (minsert m k v) k' = mget? m k' := by
  induction m with
  | nil => simp [minsert, mget?, h]
  | cons kv rest ih =>
    by_cases hk : kv.1 = k <;> simp [minsert, mget?, hk, h, ih]

theorem mget?_mmodify_self {K V : Type} [DecidableEq K]
    (d : V) (f : V → V) (m : List (K × V)) (k : K) :
    mget? (mmodify d f m k) k = some (f ((mget? m k).getD d)) := by
  induction m with
  | nil => simp [mmodify, mget?]
  | cons kv rest ih =>
    by_cases h : kv.1 = k <;> simp [mmodify, mget?, h, ih]

theorem mget?_mmodify_ne {K V : Type} [DecidableEq K]
    (d : V) (f : V → V) (m : List (K × V)) (k k' : K) (h : k ≠ k') :
    mget? (mmodify d f m k) k' = mget? m k' := by
  induction m with
  | nil => simp [mmodify, mget?, h]
  | cons kv rest ih =>
    by_cases hk : kv.1 = k <;> simp [mmodify, mget?, hk, h, ih]

theorem mmodify_of_not_mem {K V : Type} [DecidableEq K]
    (d : V) (f : V → V) (m : List (K × V)) (k : K)
    (h : mget? m k = none) :
    mmodify d f m k = m ++ [(k, f d)] := by
  induction m with
  | nil => simp [mmodify]
  | cons kv rest ih =>
    by_cases hk : kv.1 = k
    · simp [mget?, hk] at h
    · simp [mget?, hk] at h
      simp [mmodify, hk, ih h]

theorem mget?_append_left {K V : Type} [DecidableEq K]
    (m₁ m₂ : List (K × V)) (k : K) (v : V) (h : mget? m₁ k = some v) :
    mget? (m₁ ++ m₂) k = some v := by
  induction m₁ with
  | nil => simp [mget?] at h
  | cons kv rest ih =>
    by_cases hk : kv.1 = k <;> simp_all [mget?]

theorem mget?_append_right {K V : Type} [DecidableEq K]
    (m₁ m₂ : List (K × V)) (k : K) (h : mget? m₁ k = none) :
    mget? (m₁ ++ m₂) k = mget? m₂ k := by
  induction m₁ with
  | nil => simp
  | cons kv rest ih =>
    by_cases hk : kv.1 = k <;> simp_all [mget?]

/-- Entries of `mmodify` are old entries or carry the modified value. -/
theorem mem_mmodify {K V : Type} [DecidableEq K]
    (d : V) (f : V → V) (m : List (K × V)) (k : K) (P : V → Prop)
    (hm : ∀ kv ∈ m, P kv.2) (hf : ∀ v, P v → P (f v)) (hd : P d) :
    ∀ kv ∈ mmodify d f m k, P kv.2 := by
  induction m with
  | nil =>
    intro kv hkv
    simp [mmodify] at hkv
    simpa [hkv] using hf d hd
  | cons kv₀ rest ih =>
    intro kv hkv
    by_cases hk : kv₀.1 = k
    · simp [mmodify, hk] at hkv
      rcases hkv with h | h
      · simpa [h] using hf kv₀.2 (hm kv₀ (by simp))
      · exact hm kv (by simp [h])
    · simp [mmodify, hk] at hkv
      rcases hkv with h | h
      · exact hm kv (by simp [h])
      · exact ih (fun x hx => hm x (by simp [hx])) kv h

theorem mapE_error_exists {α β ε : Type} (f : α → Except ε β)
    (l : List α) (e : ε) (h : mapE f l = .error e) :
    ∃ a ∈ l, f a = .error e := by
  induction l with
  | nil => simp [mapE] at h
  | cons a rest ih =>
    rw [mapE] at h
    match ha : f a with
    | .ok b =>
      rw [ha] at h
      match hr : mapE f rest with
      | .ok bs => rw [hr] at h; exact absurd h (by simp)
      | .error e' =>
        rw [hr] at h
        obtain rfl : e' = e := by simpa using h
        obtain ⟨x, hx, hfx⟩ := ih hr
        exact ⟨x, by simp [hx], hfx⟩
    | .error e' =>
      rw [ha] at h
      obtain rfl : e' = e := by simpa using h
      exact ⟨a, by simp, ha⟩

theorem mapE_ok_forall {α β ε : Type} (f : α → Except ε β)
    (l : List α) (bs : List β) (h : mapE f l = .ok bs) :
    ∀ a ∈ l, ∃ b, f a = .ok b := by
  induction l generalizing bs with
  | nil => simp
  | cons a rest ih =>
    rw [mapE] at h
    match ha : f a with
    | .ok b =>
      rw [ha] at h
      match hr : mapE f rest with
      | .ok bs' =>
        intro x hx
        rcases List.mem_cons.mp hx with rfl | hx'
        · exact ⟨b, ha⟩
        · exact ih bs' hr x hx'
      | .error e' => rw [hr] at h; exact absurd h (by simp)
    | .error e' => rw [ha] at h; exact absurd h (by simp)

theorem mapE_ok_of_forall {α β ε : Type} (f : α → Except ε β)
    (l : List α) (h : ∀ a ∈ l, ∃ b, f a = .ok b) :
    ∃ bs, mapE f l = .ok bs := by
  induction l with
  | nil => exact ⟨[], rfl⟩
  | cons a rest ih =>
    obtain ⟨b, hb⟩ := h a (by simp)
    obtain ⟨bs, hbs⟩ := ih (fun x hx => h x (by simp [hx]))
    exact ⟨b :: bs, by rw [mapE, hb, hbs]⟩

theorem mapE_ok_eq_filterMap {α β ε : Type} (f : α → Except ε β)
    (l : List α) (bs : List β) (h : mapE f l = .ok bs) :
    bs = l.filterMap (fun a => (f a).toOption) := by
  induction l generalizing bs with
  | nil => simpa [mapE] using h.symm
  | cons a rest ih =>
    rw [mapE] at h
    match ha : f a with
    | .ok b =>
      rw [ha] at h
      match hr : mapE f rest with
      | .ok bs' =>
        rw [hr] at h
        obtain rfl : b :: bs' = bs := by simpa using h
        simp [List.filterMap, ha, Except.toOption, ih bs' hr]
      | .error e' => rw [hr] at h; exact absurd h (by simp)
    | .error e' => rw [ha] at h; exact absurd h (by simp)

theorem foldE_invariant {σ α ε : Type} (f : σ → α → Except ε σ)
    (P : σ → Prop) (hf : ∀ s a s', P s → f s a = .ok s' → P s')
    (l : List α) (s s' : σ) (hs : P s) (h : foldE f s l = .ok s') :
    P s' := by
  induction l generalizing s with
  | nil => simp [foldE] at h; exact h ▸ hs
  | cons a rest ih =>
    rw [foldE] at h
    match ha : f s a with
    | .ok s₁ => rw [ha] at h; exact ih s₁ (hf s a s₁ hs ha) h
    | .error e => rw [ha] at h; exact absurd h (by simp)

/-! ## Claim theorems -/

/-- Claim C3: Scope merging at a use site: a bare reference leaves the
permission's declared scope unchanged; an extended reference starts from the
declared scope and, when the extension supplies an allow list, appends it
after the declared allow values (creating the list if absent), likewise for
deny — so the declared values always precede the extension values. -/
theorem c3_scope_merge_at_use_site (p : Permission) :
    (∀ i, mergedScope p (.permissionRef i) = p.scope)
    ∧ (∀ i ext,
        (mergedScope p (.extendedPermission i ext)).allow
          = (match ext.allow with
             | some a => some (p.scope.allow.getD [] ++ a)
             | none => p.scope.allow)
        ∧ (mergedScope p (.extendedPermission i ext)).deny
          = (match ext.deny with
             | some d => some (p.scope.deny.getD [] ++ d)
             | none => p.scope.deny)) := by
  refine ⟨fun i => rfl, fun i ext => ?_⟩
  cases h₁ : ext.allow <;> cases h₂ : ext.deny <;>
    simp [mergedScope, h₁, h₂]

/-- Claim C5: Resolving `"default"` against a manifest with no configured
default permission set fails with `UnknownPermission`; an identifier naming
neither a permission set nor a direct permission also fails with
`UnknownPermission`. -/
theorem c5_unknown_permission (fuel : Nat) (plugin : String)
    (acl : List (String × Manifest)) (manifest : Manifest)
    (hm : mget? acl plugin = some manifest) :
    (manifest.default_permission = none →
      get_permissions fuel plugin "default" acl
        = .error (.unknownPermission plugin "default"))
    ∧ (∀ name, name ≠ "default" →
        mget? manifest.permission_sets name = none →
        mget? manifest.permissions name = none →
        get_permissions fuel plugin name acl
          = .error (.unknownPermission plugin name)) := by
  constructor
  · intro hd
    simp [get_permissions, hm, hd]
  · intro name hne hs hp
    simp [get_permissions, hm, hne, hs, hp]

/-- Witness for C5 at a concrete manifest map. -/
theorem c5_unknown_permission_witness :
    get_permissions 5 "fs" "default"
        [("fs", { permissions := [], permission_sets := [],
                  default_permission := none })]
      = .error (.unknownPermission "fs" "default")
    ∧ get_permissions 5 "fs" "nope"
        [("fs", { permissions := [], permission_sets := [],
                  default_permission := none })]
      = .error (.unknownPermission "fs" "nope") := by
  have h := c5_unknown_permission 5 "fs"
    [("fs", { permissions := [], permission_sets := [],
              default_permission := none })]
    { permissions := [], permission_sets := [], default_permission := none }
    (by decide)
  exact ⟨h.1 (by decide), h.2 "nope" (by decide) (by decide) (by decide)⟩

/-- Claim C6: A capability permission entry whose plugin is absent from the
manifest map fails with `UnknownPlugin`, carrying the referenced plugin name
and, as `available`, the (key-sorted) list of known plugin names joined for
diagnostics. -/
theorem c6_unknown_plugin (fuel : Nat) (plugin name : String)
    (acl : List (String × Manifest))
    (habs : mget? acl plugin = none)
    (hsorted : (acl.map (·.1)).Sorted (· < ·)) :
    get_permissions fuel plugin name acl
      = .error (.unknownPlugin plugin
          (String.intercalate ", " (acl.map (·.1))))
    ∧ (acl.map (·.1)).Sorted (· < ·) := by
  refine ⟨?_, hsorted⟩
  simp [get_permissions, habs]

/-- Helper for C10: a run of permission entries that all lack a plugin name is
folded over without touching the accumulator state. -/
theorem foldE_processEntry_skip (fuel : Nat) (acl : List (String × Manifest))
    (cap : Capability) (st : St) (entries : List PermissionEntry)
    (h : ∀ e ∈ entries, (PermissionEntry.identifier e).plugin? = none) :
    foldE (processEntry fuel acl cap) st entries = .ok st := by
  induction entries with
  | nil => rfl
  | cons e rest ih =>
    have he : processEntry fuel acl cap st e = .ok st := by
      simp [processEntry, h e (by simp)]
    rw [foldE, he]
    exact ih fun x hx => h x (by simp [hx])

/-- Claim C10: A capability permission entry whose identifier carries no plugin
prefix is silently skipped: it raises no error and leaves the whole
accumulator state untouched, so it contributes nothing to the allowed/denied
tables, the command scopes or the global scope; a capability consisting only
of such entries leaves the entire resolution unchanged. -/
theorem c10_prefixless_entry_skipped :
    (∀ (fuel : Nat) (acl : List (String × Manifest)) (cap : Capability)
        (st : St) (entry : PermissionEntry),
        (PermissionEntry.identifier entry).plugin? = none →
        processEntry fuel acl cap st entry = .ok st)
    ∧ (∀ (ord : List String → List String) (fuel : Nat)
        (acl : List (String × Manifest)) (name : String) (cap : Capability)
        (target : Target),
        (∀ e ∈ cap.permissions,
          (PermissionEntry.identifier e).plugin? = none) →
        Resolved.resolve ord fuel acl [(name, cap)] target
          = Resolved.resolve ord fuel acl [] target) := by
  constructor
  · intro fuel acl cap st entry h
    simp [processEntry, h]
  · intro ord fuel acl name cap target h
    have hcap : processCapability fuel acl target St.init cap = .ok St.init := by
      rw [processCapability]
      by_cases ht : target ∈ cap.platforms
      · simp [ht, foldE_processEntry_skip fuel acl cap St.init cap.permissions h]
      · simp [ht]
    have hst : stage1 fuel acl target [(name, cap)] = .ok St.init := by
      rw [stage1, foldE, hcap]
      rfl
    rw [Resolved.resolve, Resolved.resolve, hst]
    rfl

/-- Witness for C10 at a concrete prefixless entry and capability. -/
theorem c10_prefixless_entry_skipped_witness :
    processEntry 5 [] ⟨"cap", [], .Local, ["linux"], []⟩ St.init
        (.permissionRef ⟨none, "read"⟩)
      = .ok St.init
    ∧ Resolved.resolve id 5 []
        [("cap", ⟨"cap", [.permissionRef ⟨none, "read"⟩], .Local,
          ["linux"], []⟩)] "linux"
      = Resolved.resolve id 5 [] [] "linux" := by
  refine ⟨c10_prefixless_entry_skipped.1 5 [] _ St.init _ rfl,
    c10_prefixless_entry_skipped.2 id 5 [] "cap" _ "linux" ?_⟩
  intro e he
  simp at he
  simp [he, PermissionEntry.identifier]

/-- Helper for C7: the global-scope fold, started from any accumulator. -/
theorem buildGlobalScope_foldl (scopes : List Scopes)
    (acc : ResolvedScopeValue) :
    scopes.foldl
        (fun acc s =>
          { allow := acc.allow ++ s.allow.getD []
            deny := acc.deny ++ s.deny.getD [] })
        acc
      = ⟨acc.allow ++ scopes.flatMap (fun s => s.allow.getD []),
         acc.deny ++ scopes.flatMap (fun s => s.deny.getD [])⟩ := by
  induction scopes generalizing acc with
  | nil => simp
  | cons s rest ih => simp [ih, List.append_assoc]

/-- Claim C7: A permission whose command allow and deny name sets are both
empty never creates an allowed/denied command entry: processing it only
appends its effective scope to the plugin's global-scope accumulator (leaving
the command tables, the scope counter and the scope store unchanged); and the
final per-plugin global scope is the plain concatenation, in accumulation
order, of every contribution's allow and deny values, with no deduplication
and no hashing. -/
theorem c7_whole_plugin_global_scope :
    (∀ (cap : Capability) (plugin_name : String) (entry : PermissionEntry)
        (st : St) (permission : Permission),
        permission.commands.allow = [] →
        permission.commands.deny = [] →
        processPermission cap plugin_name entry st permission
          = .ok { st with
                  globalScope :=
                    mmodify [] (fun l => l ++ [mergedScope permission entry])
                      st.globalScope plugin_name })
    ∧ (∀ scopes : List Scopes,
        (buildGlobalScope scopes).allow
            = scopes.flatMap (fun s => s.allow.getD [])
        ∧ (buildGlobalScope scopes).deny
            = scopes.flatMap (fun s => s.deny.getD [])) := by
  constructor
  · intro cap plugin_name entry st permission ha hd
    simp [processPermission, ha, hd]
  · intro scopes
    rw [buildGlobalScope, buildGlobalScope_foldl]
    simp

/-- Witness for C7 at a concrete whole-plugin permission. -/
theorem c7_whole_plugin_global_scope_witness :
    processPermission ⟨"cap", [], .Local, ["linux"], []⟩ "fs"
        (.permissionRef ⟨some "fs", "g"⟩) St.init
        ⟨"g", ⟨[], []⟩, ⟨some ["a"], none⟩⟩
      = .ok { St.init with
              globalScope := [("fs", [⟨some ["a"], none⟩])] }
    ∧ (buildGlobalScope [⟨some ["a"], none⟩, ⟨some ["a", "b"], some ["d"]⟩]).allow
      = ["a", "a", "b"] := by
  constructor
  · exact c7_whole_plugin_global_scope.1 _ "fs" _ St.init _ rfl rfl
  · rw [(c7_whole_plugin_global_scope.2 _).1]
    rfl

/-- Helper for C4: expanding a concatenation of member lists whose first part
succeeds expands the second part and concatenates the results. -/
theorem expandList_append_ok (manifest : Manifest)
    (recur : PermissionSet → Except ResolveError (List Permission))
    (l₁ l₂ : List String) (setId : String) (ps₁ : List Permission)
    (h : expandList manifest recur l₁ setId = .ok ps₁) :
    expandList manifest recur (l₁ ++ l₂) setId
      = match expandList manifest recur l₂ setId with
        | .ok ps₂ => .ok (ps₁ ++ ps₂)
        | .error e => .error e := by
  induction l₁ generalizing ps₁ with
  | nil =>
    obtain rfl : ps₁ = [] := by simpa [expandList] using h
    rw [List.nil_append]
    cases expandList manifest recur l₂ setId <;> simp
  | cons p rest ih =>
    rw [List.cons_append, expandList]
    rw [expandList] at h
    match hp : mget? manifest.permissions p with
    | some perm =>
      simp only [hp] at h
      match h₁ : expandList manifest recur rest setId with
      | .ok tail =>
        simp only [h₁] at h
        obtain rfl : perm :: tail = ps₁ := by simpa using h
        rw [ih tail h₁]
        cases expandList manifest recur l₂ setId <;> simp
      | .error e =>
        simp only [h₁] at h
        exact absurd h (by simp)
    | none =>
      simp only [hp] at h
      match hs : mget? manifest.permission_sets p with
      | some ps =>
        simp only [hs] at h
        match hr : recur ps with
        | .ok nested =>
          simp only [hr] at h
          match h₁ : expandList manifest recur rest setId with
          | .ok tail =>
            simp only [h₁] at h
            obtain rfl : nested ++ tail = ps₁ := by simpa using h
            rw [ih tail h₁]
            cases expandList manifest recur l₂ setId <;>
              simp [hr, List.append_assoc]
          | .error e =>
            simp only [h₁] at h
            exact absurd h (by simp)
        | .error e =>
          simp only [hr] at h
          exact absurd h (by simp)
      | none =>
        simp only [hs] at h
        exact absurd h (by simp)

/-- Claim C4: Permission-set expansion is recursion-transparent: a set `A`
whose only member is a set `B` whose only member is a leaf permission `P`
expands to exactly the leaf-permission list of referencing `P` directly; and
a set member found in neither the permission map nor the set map fails the
expansion with `SetPermissionNotFound` carrying that member and the set. -/
theorem c4_set_expansion_transparent :
    (∀ (fuel : Nat) (acl : List (String × Manifest))
        (plugin idA idB idP : String) (manifest : Manifest)
        (setA setB : PermissionSet) (permP : Permission),
        mget? acl plugin = some manifest →
        idA ≠ "default" → idP ≠ "default" →
        mget? manifest.permission_sets idA = some setA →
        setA.permissions = [idB] →
        mget? manifest.permissions idB = none →
        mget? manifest.permission_sets idB = some setB →
        setB.permissions = [idP] →
        mget? manifest.permissions idP = some permP →
        mget? manifest.permission_sets idP = none →
        get_permissions (fuel + 1 + 1) plugin idA acl = .ok [permP]
        ∧ get_permissions (fuel + 1 + 1) plugin idP acl = .ok [permP])
    ∧ (∀ (manifest : Manifest) (fuel : Nat) (s : PermissionSet)
        (pre : List String) (m : String) (rest : List String)
        (ps₁ : List Permission),
        s.permissions = pre ++ m :: rest →
        expandList manifest (get_permission_set_permissions manifest fuel)
            pre s.identifier = .ok ps₁ →
        mget? manifest.permissions m = none →
        mget? manifest.permission_sets m = none →
        get_permission_set_permissions manifest (fuel + 1) s
          = .error (.setPermissionNotFound m s.identifier)) := by
  constructor
  · intro fuel acl plugin idA idB idP manifest setA setB permP
      hm hA hP hsetA hAperm hBnotPerm hsetB hBperm hPperm hPnotSet
    constructor
    · simp [get_permissions, hm, hA, hsetA, get_permission_set_permissions,
        hAperm, expandList, hBnotPerm, hsetB, hBperm, hPperm]
    · simp [get_permissions, hm, hP, hPnotSet, hPperm]
  · intro manifest fuel s pre m rest ps₁ hs hpre hm₁ hm₂
    rw [get_permission_set_permissions, hs,
      expandList_append_ok _ _ _ _ _ _ hpre, expandList, hm₁, hm₂]

/-- Witness for C4 at a concrete two-level permission-set nesting. -/
theorem c4_set_expansion_transparent_witness :
    get_permissions 2 "fs" "setA" [("fs", exNestedManifest)]
      = .ok [⟨"p", ⟨["r"], []⟩, ⟨none, none⟩⟩]
    ∧ get_permissions 2 "fs" "p" [("fs", exNestedManifest)]
      = .ok [⟨"p", ⟨["r"], []⟩, ⟨none, none⟩⟩]
    ∧ get_permission_set_permissions exNestedManifest 1 ⟨"bad", ["missing", "p"]⟩
      = .error (.setPermissionNotFound "missing" "bad") := by
  have h₁ := c4_set_expansion_transparent.1 0 [("fs", exNestedManifest)]
    "fs" "setA" "setB" "p" exNestedManifest
    ⟨"setA", ["setB"]⟩ ⟨"setB", ["p"]⟩ ⟨"p", ⟨["r"], []⟩, ⟨none, none⟩⟩
    (by decide) (by decide) (by decide) (by decide) (by decide) (by decide)
    (by decide) (by decide) (by decide) (by decide)
  have h₂ := c4_set_expansion_transparent.2 exNestedManifest
    0 ⟨"bad", ["missing", "p"]⟩ [] "missing" ["p"] []
    (by decide) (by decide) (by decide) (by decide)
  exact ⟨h₁.1, h₁.2, h₂⟩

/-- Updating a key absent from the map appends a fresh entry at the end. -/
theorem updateCommandEntry_fresh (m : CmdMap) (k : CommandKey)
    (cap : Capability) (scopeId : Option Nat) (perm : Permission)
    (h : mget? m k = none) :
    updateCommandEntry m k cap scopeId perm
      = m ++ [(k, freshCommandEntry cap scopeId perm)] := by
  rw [updateCommandEntry, mmodify_of_not_mem _ _ _ _ h]
  cases scopeId <;> rfl

/-- The `mapE` over a list whose elements all succeed pointwise. -/
theorem mapE_ok_of_pointwise {α β ε : Type} (f : α → Except ε β) (g : α → β)
    (l : List α) (h : ∀ a ∈ l, f a = .ok (g a)) :
    mapE f l = .ok (l.map g) := by
  induction l with
  | nil => rfl
  | cons a rest ih =>
    rw [List.map_cons, mapE, h a (by simp),
      ih fun x hx => h x (by simp [hx])]

/-- Helper for C8: the fan-out of a `Remote` capability context over
syntactically valid domain patterns. -/
theorem fanoutContexts_remote (cap : Capability) (domains : List String)
    (hcap : cap.context = .Remote domains)
    (hok : ∀ d ∈ domains, globScan false d.data = true) :
    fanoutContexts cap
      = .ok (domains.map fun d => ExecutionContext.Remote ⟨d⟩) := by
  rw [fanoutContexts, hcap]
  exact mapE_ok_of_pointwise _ _ domains fun d hd => by
    simp [patternNew, hok d hd]

/-- Helper for C8: folding the per-context update over distinct fresh remote
domains appends one independently computed fresh entry per domain. -/
theorem fold_update_fresh (cmd : String) (cap : Capability)
    (scopeId : Option Nat) (perm : Permission) (domains : List String) :
    ∀ m : CmdMap,
    (∀ d ∈ domains, mget? m ⟨cmd, ExecutionContext.Remote ⟨d⟩⟩ = none) →
    domains.Nodup →
    List.foldl
        (fun m ctx => updateCommandEntry m ⟨cmd, ctx⟩ cap scopeId perm) m
        (domains.map fun d => ExecutionContext.Remote ⟨d⟩)
      = m ++ domains.map fun d =>
          (⟨cmd, ExecutionContext.Remote ⟨d⟩⟩,
            freshCommandEntry cap scopeId perm) := by
  induction domains with
  | nil => intro m _ _; simp
  | cons d ds ih =>
    intro m hfresh hnd
    have hkey : mget? m ⟨cmd, ExecutionContext.Remote ⟨d⟩⟩ = none :=
      hfresh d (by simp)
    rw [List.map_cons, List.foldl_cons,
      updateCommandEntry_fresh m _ cap scopeId perm hkey]
    have hfresh2 : ∀ d' ∈ ds,
        mget? (m ++ [(⟨cmd, ExecutionContext.Remote ⟨d⟩⟩,
            freshCommandEntry cap scopeId perm)])
          ⟨cmd, ExecutionContext.Remote ⟨d'⟩⟩ = none := by
      intro d' hd'
      rw [mget?_append_right _ _ _ (hfresh d' (by simp [hd']))]
      have hne : d' ≠ d := by
        rintro rfl
        exact (List.nodup_cons.mp hnd).1 hd'
      simp [mget?, Ne.symm hne]
    rw [ih _ hfresh2 (List.nodup_cons.mp hnd).2]
    simp

/-- Claim C8: Execution-context fan-out: a `Local` capability context updates
exactly the one key with `ExecutionContext::Local`; a `Remote` context with
`N` declared (valid, distinct) domain glob strings yields exactly `N` command
keys, one per domain pattern, each accumulating its window patterns, scope
ids and provenance independently (each new entry carries the identical,
independently computed fresh record). -/
theorem c8_execution_context_fanout :
    (∀ (m : CmdMap) (cmd : String) (cap : Capability) (scopeId : Option Nat)
        (perm : Permission),
        cap.context = .Local →
        resolve_command m cmd cap scopeId perm
          = .ok (updateCommandEntry m ⟨cmd, .Local⟩ cap scopeId perm)
        ∧ (mget? m ⟨cmd, .Local⟩ = none →
            resolve_command m cmd cap scopeId perm
              = .ok (m ++ [(⟨cmd, ExecutionContext.Local⟩,
                  freshCommandEntry cap scopeId perm)])))
    ∧ (∀ (m : CmdMap) (cmd : String) (cap : Capability) (scopeId : Option Nat)
        (perm : Permission) (domains : List String),
        cap.context = .Remote domains →
        (∀ d ∈ domains, globScan false d.data = true) →
        (∀ d ∈ domains, mget? m ⟨cmd, ExecutionContext.Remote ⟨d⟩⟩ = none) →
        domains.Nodup →
        resolve_command m cmd cap scopeId perm
          = .ok (m ++ domains.map fun d =>
              (⟨cmd, ExecutionContext.Remote ⟨d⟩⟩,
                freshCommandEntry cap scopeId perm))
        ∧ (m ++ domains.map fun d =>
              ((⟨cmd, ExecutionContext.Remote ⟨d⟩⟩ : CommandKey),
                freshCommandEntry cap scopeId perm)).length
            = m.length + domains.length) := by
  constructor
  · intro m cmd cap scopeId perm hcap
    have hfan : fanoutContexts cap = .ok [ExecutionContext.Local] := by
      rw [fanoutContexts, hcap]
    constructor
    · rw [resolve_command, hfan]
      rfl
    · intro hfresh
      rw [resolve_command, hfan]
      simp [updateCommandEntry_fresh m _ cap scopeId perm hfresh]
  · intro m cmd cap scopeId perm domains hcap hok hfresh hnd
    refine ⟨?_, by simp⟩
    have hfan := fanoutContexts_remote cap domains hcap hok
    rw [resolve_command, hfan]
    exact congrArg Except.ok
      (fold_update_fresh cmd cap scopeId perm domains m hfresh hnd)

/-- Witness for C8 at a concrete remote capability with two domains. -/
theorem c8_execution_context_fanout_witness :
    resolve_command []
        "plugin:fs|readFile"
        ⟨"cap", [], .Remote ["*.example.com", "localhost"], ["linux"],
          ["main"]⟩
        (some 1)
        ⟨"read-file", ⟨["readFile"], []⟩, ⟨none, none⟩⟩
      = .ok
          [(CommandKey.mk "plugin:fs|readFile"
              (ExecutionContext.Remote (Pattern.mk "*.example.com")),
            ResolvedCommandTemp.mk [("cap", "read-file")] ["main"] [1] none),
           (CommandKey.mk "plugin:fs|readFile"
              (ExecutionContext.Remote (Pattern.mk "localhost")),
            ResolvedCommandTemp.mk [("cap", "read-file")] ["main"] [1] none)]
    ∧ resolve_command []
        "plugin:fs|readFile"
        ⟨"cap", [], .Local, ["linux"], ["main"]⟩
        (some 1)
        ⟨"read-file", ⟨["readFile"], []⟩, ⟨none, none⟩⟩
      = .ok
          [(CommandKey.mk "plugin:fs|readFile" ExecutionContext.Local,
            ResolvedCommandTemp.mk [("cap", "read-file")] ["main"] [1]
              none)] := by
  constructor
  · have h := (c8_execution_context_fanout.2 []
      "plugin:fs|readFile"
      ⟨"cap", [], .Remote ["*.example.com", "localhost"], ["linux"],
        ["main"]⟩
      (some 1)
      ⟨"read-file", ⟨["readFile"], []⟩, ⟨none, none⟩⟩
      ["*.example.com", "localhost"]
      rfl (by decide) (by simp [mget?]) (by decide)).1
    simpa [freshCommandEntry, dedupExtend] using h
  · have h := ((c8_execution_context_fanout.1 []
      "plugin:fs|readFile"
      ⟨"cap", [], .Local, ["linux"], ["main"]⟩
      (some 1)
      ⟨"read-file", ⟨["readFile"], []⟩, ⟨none, none⟩⟩) rfl).2 rfl
    simpa [freshCommandEntry, dedupExtend] using h

/-- Witness for C6 at a concrete manifest map with two plugins. -/
theorem c6_unknown_plugin_witness :
    get_permissions 5 "window" "x"
        [("app", { permissions := [], permission_sets := [],
                   default_permission := none }),
         ("fs", { permissions := [], permission_sets := [],
                  default_permission := none })]
      = .error (.unknownPlugin "window" "app, fs") := by
  have h := c6_unknown_plugin 5 "window" "x"
    [("app", { permissions := [], permission_sets := [],
               default_permission := none }),
     ("fs", { permissions := [], permission_sets := [],
              default_permission := none })]
    (by decide) (by simp; decide)
  simpa using h.1

/-! ## Pattern-error propagation (C9) -/

theorem patternNew_error (s : String) (e : ResolveError)
    (h : patternNew s = .error e) :
    e = .globPattern s ∧ globScan false s.data = false := by
  by_cases hs : globScan false s.data = true
  · simp [patternNew, hs] at h
  · refine ⟨?_, by simpa using hs⟩
    rw [patternNew, if_neg hs] at h
    simpa using h.symm

theorem assembleCommand_error (ord : List String → List String)
    (kv : CommandKey × ResolvedCommandTemp) (e : ResolveError)
    (h : assembleCommand ord kv = .error e) :
    ∃ w, w ∈ ord kv.2.windows ∧ e = ResolveError.globPattern w
      ∧ globScan false w.data = false := by
  rw [assembleCommand] at h
  match hp : parse_window_patterns ord kv.2.windows with
  | .ok patterns =>
    rw [hp] at h
    exact absurd h (by simp)
  | .error e' =>
    rw [hp] at h
    obtain rfl : e' = e := by simpa using h
    obtain ⟨w, hw, hwerr⟩ := mapE_error_exists _ _ _ hp
    obtain ⟨rfl, hscan⟩ := patternNew_error w _ hwerr
    exact ⟨w, hw, rfl, hscan⟩

theorem assembleCommand_ok_windows (ord : List String → List String)
    (kv : CommandKey × ResolvedCommandTemp)
    (b : CommandKey × ResolvedCommand) (h : assembleCommand ord kv = .ok b) :
    ∀ w ∈ ord kv.2.windows, ∃ p, patternNew w = .ok p := by
  rw [assembleCommand] at h
  match hp : parse_window_patterns ord kv.2.windows with
  | .ok patterns => exact mapE_ok_forall _ _ _ hp
  | .error e =>
    rw [hp] at h
    exact absurd h (by simp)

theorem assembleCommand_ok_fields (ord : List String → List String)
    (kv : CommandKey × ResolvedCommandTemp)
    (b : CommandKey × ResolvedCommand) (h : assembleCommand ord kv = .ok b) :
    b.1 = kv.1 ∧ b.2.scope = kv.2.resolvedScopeKey
      ∧ b.2.referencedBy = kv.2.referencedBy := by
  rw [assembleCommand] at h
  match hp : parse_window_patterns ord kv.2.windows with
  | .ok patterns =>
    rw [hp] at h
    obtain rfl : (kv.1,
        ⟨kv.2.referencedBy, patterns, kv.2.resolvedScopeKey⟩) = b := by
      simpa using h
    exact ⟨rfl, rfl, rfl⟩
  | .error e =>
    rw [hp] at h
    exact absurd h (by simp)

/-- The scope-resolution pass rewrites each allowed entry in place. -/
theorem resolveScopes_fst (cs : List (Nat × Scopes)) (allowed : CmdMap) :
    ∀ acc : CmdMap × List (Nat × ResolvedScopeValue),
    (List.foldl (resolveScopeStep cs) acc allowed).1
      = acc.1 ++ allowed.map fun kv =>
          (kv.1, (resolveScopeEntry cs kv.2).1) := by
  induction allowed with
  | nil => intro acc; simp
  | cons kv rest ih =>
    intro acc
    rw [List.foldl_cons, ih]
    simp [resolveScopeStep, List.append_assoc]

/-- The scope-resolution pass never changes an entry's window strings. -/
theorem resolveScopeEntry_windows (cs : List (Nat × Scopes))
    (e : ResolvedCommandTemp) :
    (resolveScopeEntry cs e).1.windows = e.windows := by
  by_cases h : e.scope = [] <;> simp [resolveScopeEntry, h]

/-- Claim C9: If any accumulated window-label string of any resolved command
(allowed or denied) fails to compile as a glob pattern, the entire resolution
fails with a pattern-syntax error carrying some failing window string — the
error is propagated, not swallowed — and no `Resolved` value is produced. -/
theorem c9_pattern_error_fail_fast
    (ord : List String → List String) (fuel : Nat)
    (acl : List (String × Manifest)) (caps : List (String × Capability))
    (target : Target) (st : St)
    (hord : OrdValid ord)
    (hst : stage1 fuel acl target caps = .ok st)
    (hbad : ∃ w, ((∃ kv ∈ st.allowed, w ∈ kv.2.windows)
        ∨ (∃ kv ∈ st.denied, w ∈ kv.2.windows))
      ∧ globScan false w.data = false) :
    (∃ w', globScan false w'.data = false
      ∧ Resolved.resolve ord fuel acl caps target
          = .error (.globPattern w'))
    ∧ ∀ r, Resolved.resolve ord fuel acl caps target ≠ .ok r := by
  have main : ∃ w', globScan false w'.data = false
      ∧ Resolved.resolve ord fuel acl caps target
          = .error (.globPattern w') := by
    match hA : mapE (assembleCommand ord)
        (resolveScopes st.commandScopes st.allowed).1 with
    | .error e =>
      obtain ⟨kv, _, hkerr⟩ := mapE_error_exists _ _ _ hA
      obtain ⟨w', _, rfl, hscan⟩ := assembleCommand_error ord kv e hkerr
      refine ⟨w', hscan, ?_⟩
      simp only [Resolved.resolve, hst, hA]
    | .ok allowedCmds =>
      match hD : mapE (assembleCommand ord) st.denied with
      | .error e =>
        obtain ⟨kv, _, hkerr⟩ := mapE_error_exists _ _ _ hD
        obtain ⟨w', _, rfl, hscan⟩ := assembleCommand_error ord kv e hkerr
        refine ⟨w', hscan, ?_⟩
        simp only [Resolved.resolve, hst, hA, hD]
      | .ok deniedCmds =>
        exfalso
        obtain ⟨w, hwloc, hwbad⟩ := hbad
        have hwparse : ∃ p, patternNew w = .ok p := by
          rcases hwloc with ⟨kv, hkv, hwin⟩ | ⟨kv, hkv, hwin⟩
          · have hkv' : (kv.1, (resolveScopeEntry st.commandScopes kv.2).1)
                ∈ (resolveScopes st.commandScopes st.allowed).1 := by
              rw [resolveScopes, resolveScopes_fst]
              simp only [List.nil_append, List.mem_map]
              exact ⟨kv, hkv, rfl⟩
            obtain ⟨b, hb⟩ := mapE_ok_forall _ _ _ hA _ hkv'
            refine assembleCommand_ok_windows ord _ b hb w ?_
            rw [(hord _).mem_iff]
            simpa [resolveScopeEntry_windows] using hwin
          · obtain ⟨b, hb⟩ := mapE_ok_forall _ _ _ hD kv hkv
            refine assembleCommand_ok_windows ord kv b hb w ?_
            rw [(hord _).mem_iff]
            exact hwin
        obtain ⟨p, hp⟩ := hwparse
        rw [patternNew, if_neg (by simp [hwbad])] at hp
        exact absurd hp (by simp)
  obtain ⟨w', hscan, herr⟩ := main
  exact ⟨⟨w', hscan, herr⟩, fun r hr => by rw [herr] at hr; exact absurd hr (by simp)⟩

/-- Witness for C9: a malformed window pattern aborts the whole resolution. -/
theorem c9_pattern_error_fail_fast_witness :
    (∃ w', globScan false w'.data = false
      ∧ Resolved.resolve id 5 badWindowAcl badWindowCaps "linux"
          = .error (.globPattern w'))
    ∧ ∀ r, Resolved.resolve id 5 badWindowAcl badWindowCaps "linux"
        ≠ .ok r :=
  c9_pattern_error_fail_fast id 5 badWindowAcl badWindowCaps "linux"
    badWindowSt (fun ws => List.Perm.refl ws) (by decide)
    ⟨"[", Or.inl ⟨(⟨"plugin:fs|readFile", .Local⟩,
      ⟨[("cap1", "read")], ["["], [], none⟩), by decide, by decide⟩,
      by decide⟩

/-! ## Scope deduplication (C1) -/

theorem resolveScopeEntry_of_ne (cs : List (Nat × Scopes))
    (e : ResolvedCommandTemp) (h : e.scope ≠ []) :
    resolveScopeEntry cs e
      = ({ e with
            scope := sortIds e.scope
            resolvedScopeKey := some (hashScopeIds (sortIds e.scope)) },
         some (hashScopeIds (sortIds e.scope),
           mergeScopes cs (sortIds e.scope))) := by
  simp [resolveScopeEntry, h]

theorem resolveScopeEntry_of_empty (cs : List (Nat × Scopes))
    (e : ResolvedCommandTemp) (h : e.scope = []) :
    resolveScopeEntry cs e = (e, none) := by
  simp [resolveScopeEntry, h]

/-- A store binding whose value every later contribution agrees with survives
the rest of the scope-resolution fold. -/
theorem resolveScopes_store_stable (cs : List (Nat × Scopes))
    (rest : CmdMap) :
    ∀ (acc : CmdMap × List (Nat × ResolvedScopeValue))
      (h : Nat) (v : ResolvedScopeValue),
    mget? acc.2 h = some v →
    (∀ k₂ e₂, (k₂, e₂) ∈ rest → e₂.scope ≠ [] →
      hashScopeIds (sortIds e₂.scope) = h →
      mergeScopes cs (sortIds e₂.scope) = v) →
    mget? (List.foldl (resolveScopeStep cs) acc rest).2 h = some v := by
  induction rest with
  | nil =>
    intro _ _ _ hacc _
    simpa using hacc
  | cons kv rest' ih =>
    intro acc h v hacc hrest
    rw [List.foldl_cons]
    apply ih
    · by_cases hk : kv.2.scope = []
      · simp only [resolveScopeStep, resolveScopeEntry_of_empty cs kv.2 hk]
        simpa using hacc
      · simp only [resolveScopeStep, resolveScopeEntry_of_ne cs kv.2 hk]
        by_cases hh : hashScopeIds (sortIds kv.2.scope) = h
        · have hv : mergeScopes cs (sortIds kv.2.scope) = v :=
            hrest kv.1 kv.2 (by simp) hk hh
          rw [hh, hv, mget?_minsert_self]
        · rw [mget?_minsert_ne _ _ _ _ hh]
          exact hacc
    · intro k₂ e₂ hmem h2 hh2
      exact hrest k₂ e₂ (by simp [hmem]) h2 hh2

/-- Under hash-injectivity on the occurring sorted id lists, the store of the
scope-resolution pass maps each entry's scope key to the merge of exactly its
own sorted contribution list. -/
theorem resolveScopes_store_lookup (cs : List (Nat × Scopes))
    (allowed : CmdMap) :
    ∀ (acc : CmdMap × List (Nat × ResolvedScopeValue))
      (k : CommandKey) (e : ResolvedCommandTemp),
    (k, e) ∈ allowed → e.scope ≠ [] →
    (∀ k₂ e₂, (k₂, e₂) ∈ allowed → e₂.scope ≠ [] →
      hashScopeIds (sortIds e₂.scope) = hashScopeIds (sortIds e.scope) →
      sortIds e₂.scope = sortIds e.scope) →
    mget? (List.foldl (resolveScopeStep cs) acc allowed).2
        (hashScopeIds (sortIds e.scope))
      = some (mergeScopes cs (sortIds e.scope)) := by
  induction allowed with
  | nil =>
    intro _ k e hmem
    exact absurd hmem (by simp)
  | cons kv rest ih =>
    intro acc k e hmem he hnc
    rw [List.foldl_cons]
    rcases List.mem_cons.mp hmem with heq | hmem'
    · have hkv2 : kv.2 = e := by rw [← heq]
      apply resolveScopes_store_stable
      · simp only [resolveScopeStep, hkv2, resolveScopeEntry_of_ne cs e he]
        rw [mget?_minsert_self]
      · intro k₂ e₂ hmem2 h2 hh2
        rw [hnc k₂ e₂ (by simp [hmem2]) h2 hh2]
    · exact ih (resolveScopeStep cs acc kv) k e hmem' he
        fun k₂ e₂ hm h2 hh2 => hnc k₂ e₂ (by simp [hm]) h2 hh2

/-- The length of a flattened map is the sum of the pieces' lengths. -/
theorem length_flatMap {α β : Type} (l : List α) (f : α → List β) :
    (l.flatMap f).length = (l.map fun a => (f a).length).sum := by
  induction l with
  | nil => rfl
  | cons a rest ih => simp [ih]

/-! ## The denied table never receives a scope key -/

theorem toOption_eq_some {ε α : Type} (x : Except ε α) (b : α)
    (h : x.toOption = some b) : x = .ok b := by
  cases x with
  | error e => simp [Except.toOption] at h
  | ok a => simpa [Except.toOption] using h

theorem NoScopeKeys_update (m : CmdMap) (k : CommandKey) (cap : Capability)
    (scopeId : Option Nat) (perm : Permission) (h : NoScopeKeys m) :
    NoScopeKeys (updateCommandEntry m k cap scopeId perm) := by
  intro kv hkv
  rw [updateCommandEntry] at hkv
  exact mem_mmodify _ _ m k (fun v => v.resolvedScopeKey = none) h
    (fun v hv => by cases scopeId <;> simpa using hv) rfl kv hkv

theorem NoScopeKeys_foldl_update (cap : Capability) (scopeId : Option Nat)
    (perm : Permission) (command : String) (ctxs : List ExecutionContext) :
    ∀ m : CmdMap, NoScopeKeys m →
    NoScopeKeys (List.foldl
      (fun m ctx => updateCommandEntry m ⟨command, ctx⟩ cap scopeId perm)
      m ctxs) := by
  induction ctxs with
  | nil => intro m hm; simpa using hm
  | cons c cs ih =>
    intro m hm
    rw [List.foldl_cons]
    exact ih _ (NoScopeKeys_update m ⟨command, c⟩ cap scopeId perm hm)

theorem NoScopeKeys_resolve_command (m m' : CmdMap) (command : String)
    (cap : Capability) (scopeId : Option Nat) (perm : Permission)
    (h : resolve_command m command cap scopeId perm = .ok m')
    (hm : NoScopeKeys m) : NoScopeKeys m' := by
  rw [resolve_command] at h
  match hf : fanoutContexts cap with
  | .ok ctxs =>
    simp only [hf] at h
    have hm' : m' = List.foldl
        (fun m ctx => updateCommandEntry m ⟨command, ctx⟩ cap scopeId perm)
        m ctxs := by
      simpa using (Except.ok.inj h).symm
    rw [hm']
    exact NoScopeKeys_foldl_update cap scopeId perm command ctxs m hm
  | .error e =>
    simp only [hf] at h
    exact absurd h (by simp)

theorem NoScopeKeys_processPermission (cap : Capability) (pn : String)
    (entry : PermissionEntry) (st : St) (p : Permission) (st' : St)
    (h : processPermission cap pn entry st p = .ok st')
    (hd : NoScopeKeys st.denied) : NoScopeKeys st'.denied := by
  rw [processPermission] at h
  by_cases hg : p.commands.allow = [] ∧ p.commands.deny = []
  · rw [if_pos hg] at h
    rw [← Except.ok.inj h]
    exact hd
  · rw [if_neg hg] at h
    match hA : foldE
        (fun m c =>
          resolve_command m (fullCommandName pn c) cap
            (permScopeId p entry st) p)
        st.allowed p.commands.allow with
    | .ok allowed =>
      simp only [hA] at h
      match hD : foldE
          (fun m c =>
            resolve_command m (fullCommandName pn c) cap
              (permScopeId p entry st) p)
          st.denied p.commands.deny with
      | .ok denied =>
        simp only [hD] at h
        rw [← Except.ok.inj h]
        exact foldE_invariant _ NoScopeKeys
          (fun m c m' hm hstep =>
            NoScopeKeys_resolve_command m m' _ cap _ p hstep hm)
          _ _ _ hd hD
      | .error e =>
        simp only [hD] at h
        exact absurd h (by simp)
    | .error e =>
      simp only [hA] at h
      exact absurd h (by simp)

theorem NoScopeKeys_processEntry (fuel : Nat) (acl : List (String × Manifest))
    (cap : Capability) (st : St) (entry : PermissionEntry) (st' : St)
    (h : processEntry fuel acl cap st entry = .ok st')
    (hd : NoScopeKeys st.denied) : NoScopeKeys st'.denied := by
  rw [processEntry] at h
  match hid : (PermissionEntry.identifier entry).plugin? with
  | none =>
    simp only [hid] at h
    rw [← Except.ok.inj h]
    exact hd
  | some pn =>
    simp only [hid] at h
    match hg : get_permissions fuel pn
        (PermissionEntry.identifier entry).base acl with
    | .ok perms =>
      simp only [hg] at h
      exact foldE_invariant _ (fun s => NoScopeKeys s.denied)
        (fun s p s' hs hstep =>
          NoScopeKeys_processPermission cap pn entry s p s' hstep hs)
        _ _ _ hd h
    | .error e =>
      simp only [hg] at h
      exact absurd h (by simp)

theorem NoScopeKeys_processCapability (fuel : Nat)
    (acl : List (String × Manifest)) (target : Target) (st : St)
    (cap : Capability) (st' : St)
    (h : processCapability fuel acl target st cap = .ok st')
    (hd : NoScopeKeys st.denied) : NoScopeKeys st'.denied := by
  rw [processCapability] at h
  by_cases ht : target ∈ cap.platforms
  · rw [if_pos ht] at h
    exact foldE_invariant _ (fun s => NoScopeKeys s.denied)
      (fun s e s' hs hstep =>
        NoScopeKeys_processEntry fuel acl cap s e s' hstep hs)
      _ _ _ hd h
  · rw [if_neg ht] at h
    rw [← Except.ok.inj h]
    exact hd

theorem NoScopeKeys_stage1 (fuel : Nat) (acl : List (String × Manifest))
    (target : Target) (caps : List (String × Capability)) (st : St)
    (h : stage1 fuel acl target caps = .ok st) : NoScopeKeys st.denied := by
  rw [stage1] at h
  exact foldE_invariant _ (fun s => NoScopeKeys s.denied)
    (fun s kv s' hs hstep =>
      NoScopeKeys_processCapability fuel acl target s kv.2 s' hstep hs)
    _ _ _ (fun kv hkv => absurd hkv (by simp [St.init])) h

/-- The scope field of every final denied command is `None`: the scope
resolution pass of the source only visits `allowed_commands`. -/
theorem resolve_denied_scope_none (ord : List String → List String)
    (fuel : Nat) (acl : List (String × Manifest))
    (caps : List (String × Capability)) (target : Target) (r : Resolved)
    (h : Resolved.resolve ord fuel acl caps target = .ok r) :
    ∀ kv ∈ r.deniedCommands, kv.2.scope = none := by
  rw [Resolved.resolve] at h
  match hst : stage1 fuel acl target caps with
  | .error e =>
    simp only [hst] at h
    exact absurd h (by simp)
  | .ok st =>
    simp only [hst] at h
    have hDKN := NoScopeKeys_stage1 fuel acl target caps st hst
    match hA : mapE (assembleCommand ord)
        (resolveScopes st.commandScopes st.allowed).1 with
    | .error e =>
      simp only [hA] at h
      exact absurd h (by simp)
    | .ok allowedCommands =>
      simp only [hA] at h
      match hD : mapE (assembleCommand ord) st.denied with
      | .error e =>
        simp only [hD] at h
        exact absurd h (by simp)
      | .ok deniedCommands =>
        simp only [hD] at h
        intro kv hkv
        have hkv' : kv ∈ deniedCommands := by
          rw [← Except.ok.inj h] at hkv
          exact hkv
        rw [mapE_ok_eq_filterMap _ _ _ hD] at hkv'
        obtain ⟨src, hsrc, hsome⟩ := List.mem_filterMap.mp hkv'
        have hok : assembleCommand ord src = .ok kv :=
          toOption_eq_some _ _ hsome
        rw [(assembleCommand_ok_fields ord src kv hok).2.1]
        exact hDKN src hsrc

/-- Claim C1, amended: For every entry of the *allowed* command table whose
list of contributing scope ids is non-empty, the scope-resolution pass sorts
the id list ascending, computes the deterministic content hash of the sorted
sequence, sets that hash as the entry's scope key, and — provided the hash is
collision-free on the occurring sorted id lists (the source's accepted,
unchecked risk) — stores under that key a scope whose allow list is the
concatenation, in ascending scope-id order, of every contributing scope's
allow values (deny likewise), so the merged allow length is the sum of the
contributions' allow lengths; entries with an empty contributing-id list are
left untouched with `scope = None`.  Entries of the *denied* table, however,
always end with `scope = None`: the pass never visits them. -/
theorem c1_scope_dedup (cs : List (Nat × Scopes)) (allowed : CmdMap)
    (k : CommandKey) (e : ResolvedCommandTemp)
    (hmem : (k, e) ∈ allowed)
    (hnc : ∀ k₂ e₂, (k₂, e₂) ∈ allowed → e₂.scope ≠ [] →
      hashScopeIds (sortIds e₂.scope) = hashScopeIds (sortIds e.scope) →
      sortIds e₂.scope = sortIds e.scope) :
    ((resolveScopes cs allowed).1
        = allowed.map fun kv => (kv.1, (resolveScopeEntry cs kv.2).1))
    ∧ (e.scope ≠ [] →
        (resolveScopeEntry cs e).1.scope = sortIds e.scope
        ∧ List.Sorted (· ≤ ·) (sortIds e.scope)
        ∧ (sortIds e.scope).Perm e.scope
        ∧ (resolveScopeEntry cs e).1.resolvedScopeKey
            = some (hashScopeIds (sortIds e.scope))
        ∧ mget? (resolveScopes cs allowed).2 (hashScopeIds (sortIds e.scope))
            = some (mergeScopes cs (sortIds e.scope))
        ∧ (mergeScopes cs (sortIds e.scope)).allow
            = (sortIds e.scope).flatMap
                (fun s => ((mget? cs s).getD ⟨none, none⟩).allow.getD [])
        ∧ (mergeScopes cs (sortIds e.scope)).allow.length
            = ((sortIds e.scope).map
                (fun s =>
                  (((mget? cs s).getD ⟨none, none⟩).allow.getD []).length)).sum)
    ∧ (e.scope = [] → resolveScopeEntry cs e = (e, none))
    ∧ (∀ (ord : List String → List String) (fuel : Nat)
          (acl : List (String × Manifest))
          (caps : List (String × Capability)) (target : Target)
          (r : Resolved),
          Resolved.resolve ord fuel acl caps target = .ok r →
          ∀ kv ∈ r.deniedCommands, kv.2.scope = none) := by
  refine ⟨?_, ?_, ?_, ?_⟩
  · rw [resolveScopes, resolveScopes_fst]
    simp
  · intro he
    refine ⟨?_, ?_, ?_, ?_, ?_, rfl, ?_⟩
    · simp [resolveScopeEntry_of_ne cs e he]
    · exact List.sorted_insertionSort (· ≤ ·) e.scope
    · exact List.perm_insertionSort (· ≤ ·) e.scope
    · simp [resolveScopeEntry_of_ne cs e he]
    · rw [resolveScopes]
      exact resolveScopes_store_lookup cs allowed ([], []) k e hmem he hnc
    · exact length_flatMap _ _
  · exact resolveScopeEntry_of_empty cs e
  · exact resolve_denied_scope_none

/-- Witness for C1 at a concrete allowed entry with contributing ids
`[2, 1]`: the merged scope under the hashed key concatenates the two
contributions in ascending id order. -/
theorem c1_scope_dedup_witness :
    mget? (resolveScopes c1cs c1allowed).2
        (hashScopeIds (sortIds [2, 1]))
      = some (mergeScopes c1cs (sortIds [2, 1]))
    ∧ (mergeScopes c1cs (sortIds [2, 1])).allow = ["a", "b", "c"]
    ∧ sortIds [2, 1] = [1, 2] := by
  have h := c1_scope_dedup c1cs c1allowed
    ⟨"plugin:fs|readFile", .Local⟩ ⟨[], [], [2, 1], none⟩
    (by decide)
    (fun k₂ e₂ hm _ _ => by
      have h2 : e₂ = ⟨[], [], [2, 1], none⟩ := by
        simp [c1allowed] at hm
        exact hm.2
      rw [h2])
  exact ⟨(h.2.1 (by decide)).2.2.2.2.1, by decide, by decide⟩

/-- Claim C1, counterexample: At this input the denied command accumulates the
non-empty contributing scope-id list `[1]`, yet resolution leaves the final
denied entry's scope key as `None` and the scope store empty — the claim's
"denied command table" half fails on the code. -/
theorem c1_counterexample :
    stage1 5 deniedScopeAcl "linux" deniedScopeCaps = .ok c1badSt
    ∧ mget? c1badSt.denied ⟨"plugin:fs|evil", .Local⟩
        = some ⟨[("cap1", "deny-evil")], ["*"], [1], none⟩
    ∧ ([1] : List Nat) ≠ []
    ∧ Resolved.resolve id 5 deniedScopeAcl deniedScopeCaps "linux"
        = .ok c1badResolved
    ∧ mget? c1badResolved.deniedCommands ⟨"plugin:fs|evil", .Local⟩
        = some ⟨[("cap1", "deny-evil")], [⟨"*"⟩], none⟩
    ∧ c1badResolved.commandScope = [] := by
  refine ⟨by decide, by decide, by decide, by decide, by decide, by decide⟩

/-! ## Determinism up to window order (C2) -/

theorem mapE_ok_iff {α β ε : Type} (f : α → Except ε β) (l : List α) :
    (∃ bs, mapE f l = .ok bs) ↔ ∀ a ∈ l, ∃ b, f a = .ok b :=
  ⟨fun ⟨bs, h⟩ => mapE_ok_forall f l bs h, mapE_ok_of_forall f l⟩

theorem assembleCommand_ok_windows_eq (ord : List String → List String)
    (kv : CommandKey × ResolvedCommandTemp)
    (b : CommandKey × ResolvedCommand) (h : assembleCommand ord kv = .ok b) :
    b.2.windows
      = (ord kv.2.windows).filterMap fun w => (patternNew w).toOption := by
  rw [assembleCommand] at h
  match hp : parse_window_patterns ord kv.2.windows with
  | .ok patterns =>
    rw [hp] at h
    obtain rfl : (kv.1,
        (⟨kv.2.referencedBy, patterns, kv.2.resolvedScopeKey⟩ :
          ResolvedCommand)) = b := by
      simpa using h
    exact mapE_ok_eq_filterMap _ _ _ hp
  | .error e =>
    rw [hp] at h
    exact absurd h (by simp)

theorem assembleCommand_ok_iff (ord : List String → List String)
    (hord : OrdValid ord) (kv : CommandKey × ResolvedCommandTemp) :
    (∃ b, assembleCommand ord kv = .ok b)
      ↔ ∀ w ∈ kv.2.windows, ∃ p, patternNew w = .ok p := by
  constructor
  · intro ⟨b, hb⟩ w hw
    exact assembleCommand_ok_windows ord kv b hb w
      ((hord kv.2.windows).mem_iff.mpr hw)
  · intro hall
    obtain ⟨ps, hps⟩ := mapE_ok_of_forall patternNew (ord kv.2.windows)
      fun w hw => hall w ((hord kv.2.windows).mem_iff.mp hw)
    refine ⟨(kv.1, ⟨kv.2.referencedBy, ps, kv.2.resolvedScopeKey⟩), ?_⟩
    rw [assembleCommand, parse_window_patterns, hps]

theorem assembleCommand_agree (ordA ordB : List String → List String)
    (hA : OrdValid ordA) (hB : OrdValid ordB)
    (kv : CommandKey × ResolvedCommandTemp)
    (b₁ b₂ : CommandKey × ResolvedCommand)
    (h₁ : assembleCommand ordA kv = .ok b₁)
    (h₂ : assembleCommand ordB kv = .ok b₂) : CommandAgree b₁ b₂ := by
  obtain ⟨e₁k, e₁s, e₁r⟩ := assembleCommand_ok_fields ordA kv b₁ h₁
  obtain ⟨e₂k, e₂s, e₂r⟩ := assembleCommand_ok_fields ordB kv b₂ h₂
  refine ⟨e₁k.trans e₂k.symm, e₁s.trans e₂s.symm, e₁r.trans e₂r.symm, ?_⟩
  rw [assembleCommand_ok_windows_eq ordA kv b₁ h₁,
    assembleCommand_ok_windows_eq ordB kv b₂ h₂]
  exact List.Perm.filterMap _
    ((hA kv.2.windows).trans (hB kv.2.windows).symm)

theorem mapE_assemble_ok_iff (ordA ordB : List String → List String)
    (hA : OrdValid ordA) (hB : OrdValid ordB) (l : CmdMap) :
    (∃ bs, mapE (assembleCommand ordA) l = .ok bs)
      ↔ (∃ bs, mapE (assembleCommand ordB) l = .ok bs) := by
  rw [mapE_ok_iff, mapE_ok_iff]
  constructor
  · intro h kv hkv
    exact (assembleCommand_ok_iff ordB hB kv).mpr
      ((assembleCommand_ok_iff ordA hA kv).mp (h kv hkv))
  · intro h kv hkv
    exact (assembleCommand_ok_iff ordA hA kv).mpr
      ((assembleCommand_ok_iff ordB hB kv).mp (h kv hkv))

theorem mapE_assemble_forall₂ (ordA ordB : List String → List String)
    (hA : OrdValid ordA) (hB : OrdValid ordB) (l : CmdMap) :
    ∀ (bs₁ bs₂ : List (CommandKey × ResolvedCommand)),
    mapE (assembleCommand ordA) l = .ok bs₁ →
    mapE (assembleCommand ordB) l = .ok bs₂ →
    List.Forall₂ CommandAgree bs₁ bs₂ := by
  induction l with
  | nil =>
    intro bs₁ bs₂ h₁ h₂
    obtain rfl : ([] : List (CommandKey × ResolvedCommand)) = bs₁ := by
      simpa [mapE] using h₁
    obtain rfl : ([] : List (CommandKey × ResolvedCommand)) = bs₂ := by
      simpa [mapE] using h₂
    exact List.Forall₂.nil
  | cons kv rest ih =>
    intro bs₁ bs₂ h₁ h₂
    rw [mapE] at h₁ h₂
    match ha : assembleCommand ordA kv with
    | .error e =>
      simp only [ha] at h₁
      exact absurd h₁ (by simp)
    | .ok b₁ =>
      simp only [ha] at h₁
      match hra : mapE (assembleCommand ordA) rest with
      | .error e =>
        simp only [hra] at h₁
        exact absurd h₁ (by simp)
      | .ok tl₁ =>
        simp only [hra] at h₁
        match hb : assembleCommand ordB kv with
        | .error e =>
          simp only [hb] at h₂
          exact absurd h₂ (by simp)
        | .ok b₂ =>
          simp only [hb] at h₂
          match hrb : mapE (assembleCommand ordB) rest with
          | .error e =>
            simp only [hrb] at h₂
            exact absurd h₂ (by simp)
          | .ok tl₂ =>
            simp only [hrb] at h₂
            obtain rfl : b₁ :: tl₁ = bs₁ := by simpa using h₁
            obtain rfl : b₂ :: tl₂ = bs₂ := by simpa using h₂
            exact List.Forall₂.cons
              (assembleCommand_agree ordA ordB hA hB kv b₁ b₂ ha hb)
              (ih tl₁ tl₂ hra hrb)

/-- Claim C2, amended: Resolution is a pure function of its inputs and the
window-set iteration order: for a fixed order the output is determined; for
two runs with (possibly different) valid `HashSet` iteration orders, either
both fail or both succeed, and on success the outputs are identical in every
component except that each command's compiled window patterns may appear in a
different order (they are permutations of each other).  Bit-identical output
is *not* guaranteed, because the source iterates a `HashSet` whose order is
not a function of the input. -/
theorem c2_determinism (ordA ordB : List String → List String)
    (hA : OrdValid ordA) (hB : OrdValid ordB) (fuel : Nat)
    (acl : List (String × Manifest)) (caps : List (String × Capability))
    (target : Target) :
    (Resolved.resolve ordA fuel acl caps target
        = Resolved.resolve ordA fuel acl caps target)
    ∧ ((∃ r, Resolved.resolve ordA fuel acl caps target = .ok r)
        ↔ (∃ r, Resolved.resolve ordB fuel acl caps target = .ok r))
    ∧ (∀ r₁ r₂, Resolved.resolve ordA fuel acl caps target = .ok r₁ →
        Resolved.resolve ordB fuel acl caps target = .ok r₂ →
        r₁.acl = r₂.acl ∧ r₁.commandScope = r₂.commandScope
        ∧ r₁.globalScope = r₂.globalScope
        ∧ List.Forall₂ CommandAgree r₁.allowedCommands r₂.allowedCommands
        ∧ List.Forall₂ CommandAgree r₁.deniedCommands r₂.deniedCommands) := by
  refine ⟨rfl, ?_, ?_⟩
  · match hst : stage1 fuel acl target caps with
    | .error e =>
      simp [Resolved.resolve, hst]
    | .ok st =>
      constructor
      · rintro ⟨r, hr⟩
        revert hr
        simp only [Resolved.resolve, hst]
        match hLA : mapE (assembleCommand ordA)
            (resolveScopes st.commandScopes st.allowed).1 with
        | .error e => intro hr; exact absurd hr (by simp)
        | .ok as₁ =>
          match hDA : mapE (assembleCommand ordA) st.denied with
          | .error e => intro hr; exact absurd hr (by simp)
          | .ok ds₁ =>
            intro _
            obtain ⟨as₂, hLB⟩ :=
              (mapE_assemble_ok_iff ordA ordB hA hB _).mp ⟨as₁, hLA⟩
            obtain ⟨ds₂, hDB⟩ :=
              (mapE_assemble_ok_iff ordA ordB hA hB _).mp ⟨ds₁, hDA⟩
            exact ⟨_, by rw [hLB, hDB]⟩
      · rintro ⟨r, hr⟩
        revert hr
        simp only [Resolved.resolve, hst]
        match hLB : mapE (assembleCommand ordB)
            (resolveScopes st.commandScopes st.allowed).1 with
        | .error e => intro hr; exact absurd hr (by simp)
        | .ok as₂ =>
          match hDB : mapE (assembleCommand ordB) st.denied with
          | .error e => intro hr; exact absurd hr (by simp)
          | .ok ds₂ =>
            intro _
            obtain ⟨as₁, hLA⟩ :=
              (mapE_assemble_ok_iff ordA ordB hA hB _).mpr ⟨as₂, hLB⟩
            obtain ⟨ds₁, hDA⟩ :=
              (mapE_assemble_ok_iff ordA ordB hA hB _).mpr ⟨ds₂, hDB⟩
            exact ⟨_, by rw [hLA, hDA]⟩
  · intro r₁ r₂ h₁ h₂
    revert h₁ h₂
    match hst : stage1 fuel acl target caps with
    | .error e =>
      intro h₁ h₂
      exact absurd h₁ (by simp [Resolved.resolve, hst])
    | .ok st =>
      simp only [Resolved.resolve, hst]
      match hLA : mapE (assembleCommand ordA)
          (resolveScopes st.commandScopes st.allowed).1 with
      | .error e => intro h₁ h₂; exact absurd h₁ (by simp)
      | .ok as₁ =>
        match hDA : mapE (assembleCommand ordA) st.denied with
        | .error e => intro h₁ h₂; exact absurd h₁ (by simp)
        | .ok ds₁ =>
          match hLB : mapE (assembleCommand ordB)
              (resolveScopes st.commandScopes st.allowed).1 with
          | .error e => intro h₁ h₂; exact absurd h₂ (by simp)
          | .ok as₂ =>
            match hDB : mapE (assembleCommand ordB) st.denied with
            | .error e => intro h₁ h₂; exact absurd h₂ (by simp)
            | .ok ds₂ =>
              intro h₁ h₂
              rw [← Except.ok.inj h₁, ← Except.ok.inj h₂]
              exact ⟨rfl, rfl, rfl,
                mapE_assemble_forall₂ ordA ordB hA hB _ as₁ as₂ hLA hLB,
                mapE_assemble_forall₂ ordA ordB hA hB _ ds₁ ds₂ hDA hDB⟩

/-- Claim C2, counterexample: Two valid iteration orders of the accumulated
window set (identity and reversal — both are permutations, which is all a
`HashSet` iteration guarantees) produce `Resolved` values that are *not*
bit-identical: the compiled window patterns come out in different orders. -/
theorem c2_counterexample :
    OrdValid id
    ∧ OrdValid (fun l => l.reverse)
    ∧ Resolved.resolve id 5 twoWindowAcl twoWindowCaps "linux"
        ≠ Resolved.resolve (fun l => l.reverse) 5 twoWindowAcl twoWindowCaps
            "linux" :=
  ⟨fun ws => List.Perm.refl ws, fun ws => List.reverse_perm ws, by decide⟩

/-- Witness for C2 at a concrete input and two concrete valid orders. -/
theorem c2_determinism_witness :
    (∃ r, Resolved.resolve id 5 twoWindowAcl twoWindowCaps "linux" = .ok r)
      ↔ (∃ r, Resolved.resolve (fun l => l.reverse) 5 twoWindowAcl
          twoWindowCaps "linux" = .ok r) :=
  (c2_determinism id (fun l => l.reverse) (fun ws => List.Perm.refl ws)
    (fun ws => List.reverse_perm ws) 5 twoWindowAcl twoWindowCaps
    "linux").2.1

end Acl
